/-
  Verification of the tammany blockchain core (src/block.rs).

  Shallow embedding conventions:
  * Rust `u8`/`u32`/`u128` values are `Nat`; fixed-width big-endian byte
    encodings take the value modulo 2^(8*width), which is the identity on
    in-range values.  The `u32` addition `prev_block.index + 1` is modelled
    as `Nat` addition (the debug-build overflow panic at `index = 2^32 - 1`
    is not modelled; all indices arising in real chains are far below it).
  * A Rust panic (`expect` on an empty chain) is modelled by `Option`:
    a function that can panic returns `none` exactly on the panicking
    inputs.  Mutating methods on `Handler` take the state and return
    `Option (result × new state)`.
  * SHA-256 is implemented in full on byte lists; the incremental
    `chain_update` interface of the `sha2` crate is modelled by
    accumulating the fed bytes and hashing at `finalize`.
-/
import Mathlib

namespace Tammany

/-! ## Byte-level primitives -/

/-- Big-endian fixed-width byte encoding: `beBytes w v` is the `w`-byte
big-endian encoding of `v % 2^(8*w)` (`u32::to_be_bytes` has `w = 4`,
`u128::to_be_bytes` has `w = 16`). -/
def beBytes : Nat → Nat → List Nat
  | 0, _ => []
  | w + 1, v => beBytes w (v >>> 8) ++ [v % 256]

/-- UTF-8 encoding of a single unicode scalar value. -/
def utf8Char (c : Char) : List Nat :=
  let n := c.toNat
  if n < 0x80 then [n]
  else if n < 0x800 then
    [0xc0 ||| (n >>> 6), 0x80 ||| (n &&& 0x3f)]
  else if n < 0x10000 then
    [0xe0 ||| (n >>> 12), 0x80 ||| ((n >>> 6) &&& 0x3f), 0x80 ||| (n &&& 0x3f)]
  else
    [0xf0 ||| (n >>> 18), 0x80 ||| ((n >>> 12) &&& 0x3f),
     0x80 ||| ((n >>> 6) &&& 0x3f), 0x80 ||| (n &&& 0x3f)]

/-- UTF-8 encoding of a string (the byte view a Rust `String` feeds to the
hasher). -/
def utf8Bytes (s : String) : List Nat :=
  (s.data.map utf8Char).flatten

/-! ## SHA-256 -/

namespace Sha256

/-- Reduction modulo 2^32 (all words of the compression state are 32-bit). -/
def wmod (x : Nat) : Nat := x % 4294967296

/-- Rotate a 32-bit word right by `n` bits. -/
def rotr (n x : Nat) : Nat := wmod ((x >>> n) ||| (x <<< (32 - n)))

def smallSigma0 (x : Nat) : Nat := (rotr 7 x) ^^^ (rotr 18 x) ^^^ (x >>> 3)

def smallSigma1 (x : Nat) : Nat := (rotr 17 x) ^^^ (rotr 19 x) ^^^ (x >>> 10)

def bigSigma0 (x : Nat) : Nat := (rotr 2 x) ^^^ (rotr 13 x) ^^^ (rotr 22 x)

def bigSigma1 (x : Nat) : Nat := (rotr 6 x) ^^^ (rotr 11 x) ^^^ (rotr 25 x)

def ch (x y z : Nat) : Nat := (x &&& y) ^^^ ((x ^^^ 0xffffffff) &&& z)

def maj (x y z : Nat) : Nat := (x &&& y) ^^^ (x &&& z) ^^^ (y &&& z)

/-- The 64 round constants. -/
def K : List Nat :=
  [1116352408, 1899447441, 3049323471, 3921009573, 961987163,
   1508970993, 2453635748, 2870763221, 3624381080, 310598401,
   607225278, 1426881987, 1925078388, 2162078206, 2614888103,
   3248222580, 3835390401, 4022224774, 264347078, 604807628,
   770255983, 1249150122, 1555081692, 1996064986, 2554220882,
   2821834349, 2952996808, 3210313671, 3336571891, 3584528711,
   113926993, 338241895, 666307205, 773529912, 1294757372,
   1396182291, 1695183700, 1986661051, 2177026350, 2456956037,
   2730485921, 2820302411, 3259730800, 3345764771, 3516065817,
   3600352804, 4094571909, 275423344, 430227734, 506948616,
   659060556, 883997877, 958139571, 1322822218, 1537002063,
   1747873779, 1955562222, 2024104815, 2227730452, 2361852424,
   2428436474, 2756734187, 3204031479, 3329325298]

/-- The initial hash state. -/
def initH : List Nat :=
  [1779033703, 3144134277, 1013904242, 2773480762,
   1359893119, 2600822924, 528734635, 1541459225]

/-- Padding: append 0x80, zero bytes to 56 mod 64, then the 8-byte
big-endian bit length. -/
def pad (msg : List Nat) : List Nat :=
  msg ++ [0x80] ++ List.replicate ((119 - msg.length % 64) % 64) 0
      ++ beBytes 8 (8 * msg.length)

/-- Assemble big-endian 32-bit words from bytes. -/
def toWords : List Nat → List Nat
  | b0 :: b1 :: b2 :: b3 :: rest =>
      ((b0 <<< 24) ||| (b1 <<< 16) ||| (b2 <<< 8) ||| b3) :: toWords rest
  | _ => []

/-- One message-schedule extension step: append word `w[n]` computed from
`w[n-16]`, `w[n-15]`, `w[n-7]`, `w[n-2]`. -/
def extendStep (w : List Nat) : List Nat :=
  let n := w.length
  w ++ [wmod (w.getD (n - 16) 0 + smallSigma0 (w.getD (n - 15) 0)
        + w.getD (n - 7) 0 + smallSigma1 (w.getD (n - 2) 0))]

def extendMany : Nat → List Nat → List Nat
  | 0, w => w
  | k + 1, w => extendMany k (extendStep w)

/-- The 64-word message schedule of one 64-byte chunk. -/
def schedule (chunk : List Nat) : List Nat := extendMany 48 (toWords chunk)

/-- One compression round on the 8-word working state. -/
def round (st : List Nat) (kw : Nat × Nat) : List Nat :=
  match st with
  | [a, b, c, d, e, f, g, h] =>
      let t1 := wmod (h + bigSigma1 e + ch e f g + kw.1 + kw.2)
      let t2 := wmod (bigSigma0 a + maj a b c)
      [wmod (t1 + t2), a, b, c, wmod (d + t1), e, f, g]
  | other => other

/-- Compress one 64-byte chunk into the hash state. -/
def compress (hs : List Nat) (chunk : List Nat) : List Nat :=
  let st := (K.zip (schedule chunk)).foldl round hs
  (hs.zip st).map fun p => wmod (p.1 + p.2)

/-- Split into 64-byte chunks, with explicit fuel for structural recursion;
every step consumes at least one element, so `fuel = l.length` suffices. -/
def chunksGo : Nat → List Nat → List (List Nat)
  | 0, _ => []
  | _, [] => []
  | fuel + 1, b :: t => (b :: t).take 64 :: chunksGo fuel ((b :: t).drop 64)

/-- Split into 64-byte chunks. -/
def chunks (l : List Nat) : List (List Nat) := chunksGo l.length l

end Sha256

/-- SHA-256 digest (32 bytes) of a byte list. -/
def sha256 (msg : List Nat) : List Nat :=
  (((Sha256.chunks (Sha256.pad msg)).foldl Sha256.compress Sha256.initH).map
    (beBytes 4)).flatten

/-! ## The incremental hasher interface of the `sha2` crate -/

/-- State of `Sha256::new()`: the bytes fed so far. -/
def Sha256.newHasher : List Nat := []

/-- Model of `chain_update`: feed more bytes. -/
def Sha256.chainUpdate (st : List Nat) (bytes : List Nat) : List Nat :=
  st ++ bytes

/-- Model of `finalize`: hash everything fed so far. -/
def Sha256.finalize (st : List Nat) : List Nat := sha256 st

/-- The all-zero 32-byte value, `Output::<Sha256>::default()`. -/
def zeroHash : List Nat := List.replicate 32 0

/-! ## The Block data model (`block.rs`) -/

/-- `const GENESIS_DATA: &str = "genesis data"`. -/
def GENESIS_DATA : String := "genesis data"

/-- `const GENESIS_TIMESTAMP: u128 = 0`. -/
def GENESIS_TIMESTAMP : Nat := 0

/-- The `Block` struct.  `prev_hash` and `hash` are `[u8; 32]` (byte lists of
length 32 in every value the program builds), `index` is `u32`, `timestamp`
is `u128`, `data` is a `String`. -/
structure Block where
  prev_hash : List Nat
  index : Nat
  timestamp : Nat
  data : String
  hash : List Nat
deriving DecidableEq, Repr

/-- `Block::calculate_hash`: SHA-256 over `prev_hash`, the 4-byte big-endian
`index`, the 16-byte big-endian `timestamp`, and the UTF-8 bytes of `data`,
fed in that order through `chain_update`. -/
def Block.calculate_hash (block : Block) : List Nat :=
  Sha256.finalize
    (Sha256.chainUpdate
      (Sha256.chainUpdate
        (Sha256.chainUpdate
          (Sha256.chainUpdate Sha256.newHasher block.prev_hash)
          (beBytes 4 block.index))
        (beBytes 16 block.timestamp))
      (utf8Bytes block.data))

/-- `Block::new`: build the block with a zeroed hash field, then store
`calculate_hash` of it. -/
def Block.new (prev_hash : List Nat) (index : Nat) (timestamp : Nat)
    (data : String) : Block :=
  let block : Block :=
    { prev_hash := prev_hash, index := index, timestamp := timestamp,
      data := data, hash := zeroHash }
  { block with hash := Block.calculate_hash block }

/-- `Block::generate_block`: derive `prev_hash` and `index` from the previous
block; the wall-clock reading `SystemTime::now()...as_millis()` is passed in
as the extra argument `now_millis`. -/
def Block.generate_block (data : String) (prev_block : Block)
    (now_millis : Nat) : Block :=
  Block.new prev_block.hash (prev_block.index + 1) now_millis data

/-- `Block::validate_block`: index continuity, hash linkage, and hash
recomputation. -/
def Block.validate_block (self : Block) (prev_block : Block) : Bool :=
  (self.index == prev_block.index + 1) &&
  (self.prev_hash == prev_block.hash) &&
  (self.hash == Block.calculate_hash self)

/-! ## The message protocol -/

/-- The `ClientMessage` enum. -/
inductive ClientMessage where
  | QueryLatest
  | QueryAll
  | ResponseLatest (block : Block)
  | ResponseAll (chain : List Block)
deriving DecidableEq, Repr

/-! ## The ledger store (`Handler`) -/

/-- The `Handler` struct: the local chain plus the genesis constant. -/
structure Handler where
  blockchain : List Block
  genesis : Block
deriving DecidableEq, Repr

/-- The genesis block built by `Handler::new`. -/
def genesisBlock : Block :=
  Block.new zeroHash 0 GENESIS_TIMESTAMP GENESIS_DATA

/-- `Handler::new`: chain holds exactly the genesis block. -/
def Handler.new : Handler :=
  { blockchain := [genesisBlock], genesis := genesisBlock }

/-- Loop body of `validate_chain`: starting from `prev_block`, every later
block must satisfy `validate_block` against its predecessor, short-circuiting
on the first failure. -/
def chainStepsOk : Block → List Block → Bool
  | _, [] => true
  | prev_block, block :: rest =>
      block.validate_block prev_block && chainStepsOk block rest

/-- `Handler::validate_chain`.  `chain.get(0).expect("chain empty")` panics
on an empty chain (modelled as `none`); otherwise the first element must
equal `genesis` and every adjacent pair must satisfy `validate_block`. -/
def Handler.validate_chain (genesis : Block) (chain : List Block) :
    Option Bool :=
  match chain with
  | [] => none
  | first :: rest =>
      if first ≠ genesis then some false
      else some (chainStepsOk first rest)

/-- `Handler::replace_chain`: accept iff the candidate validates against
genesis and is strictly longer; on acceptance the whole chain is swapped. -/
def Handler.replace_chain (self : Handler) (new_chain : List Block) :
    Option (Bool × Handler) :=
  (Handler.validate_chain self.genesis new_chain).map fun ok =>
    if ok && decide (self.blockchain.length < new_chain.length) then
      (true, { self with blockchain := new_chain })
    else
      (false, self)

/-- `Handler::latest_block`: last element of the chain;
`expect("chain empty")` panics on an empty chain (modelled as `none`). -/
def Handler.latest_block (self : Handler) : Option Block :=
  self.blockchain.getLast?

/-- `Handler::push_block`: append iff the candidate validates against the
current latest block. -/
def Handler.push_block (self : Handler) (new_block : Block) :
    Option (Bool × Handler) :=
  self.latest_block.map fun latest =>
    if new_block.validate_block latest then
      (true, { self with blockchain := self.blockchain ++ [new_block] })
    else
      (false, self)

/-! ## JSON wire encoding (model of `serde_json::to_string` on the derived
`Serialize` instances)

The encoder produces exactly the compact canonical text `serde_json` emits:
unit variants as bare JSON strings, newtype variants as one-key objects,
structs as objects in field declaration order, `[u8; 32]` as arrays of
numbers, strings with the `serde_json` escape rules (`\"`, `\\`, `\b`,
`\t`, `\n`, `\f`, `\r`, and `\u00xy` with lowercase hex for the remaining
control characters; everything else, DEL and non-ASCII included, verbatim).
-/

/-- Decimal digit character. -/
def digitChar (d : Nat) : Char := Char.ofNat (48 + d)

/-- Decimal rendering with fuel for structural recursion; `fuel = n`
suffices because the argument at least halves each step. -/
def renderNatGo : Nat → Nat → List Char → List Char
  | 0, n, acc => digitChar n :: acc
  | fuel + 1, n, acc =>
      if n < 10 then digitChar n :: acc
      else renderNatGo fuel (n / 10) (digitChar (n % 10) :: acc)

/-- Decimal rendering of an unsigned integer. -/
def renderNat (n : Nat) : List Char := renderNatGo n n []

/-- Lowercase hexadecimal digit character. -/
def hexDigitChar (d : Nat) : Char :=
  Char.ofNat (if d < 10 then 48 + d else 87 + d)

/-- The `serde_json` escaping of one character inside a JSON string. -/
def escapeChar (c : Char) : List Char :=
  if c = '"' then ['\\', '"']
  else if c = '\\' then ['\\', '\\']
  else if c.toNat = 8 then ['\\', 'b']
  else if c.toNat = 9 then ['\\', 't']
  else if c.toNat = 10 then ['\\', 'n']
  else if c.toNat = 12 then ['\\', 'f']
  else if c.toNat = 13 then ['\\', 'r']
  else if c.toNat < 32 then
    ['\\', 'u', '0', '0', hexDigitChar (c.toNat / 16), hexDigitChar (c.toNat % 16)]
  else [c]

/-- A JSON string literal: quote, escaped characters, quote. -/
def renderString (s : String) : List Char :=
  '"' :: (s.data.map escapeChar).flatten ++ ['"']

/-- Comma-separated concatenation of already-rendered pieces. -/
def commaSep : List (List Char) → List Char
  | [] => []
  | [x] => x
  | x :: y :: rest => x ++ ',' :: commaSep (y :: rest)

/-- A JSON array of numbers (the encoding of `[u8; 32]`). -/
def renderNatList (l : List Nat) : List Char :=
  '[' :: commaSep (l.map renderNat) ++ [']']

/-- The canonical JSON object for a `Block`, fields in declaration order. -/
def renderBlock (b : Block) : List Char :=
  '\x7b' :: renderString "prev_hash" ++ ':' :: renderNatList b.prev_hash
    ++ ',' :: renderString "index" ++ ':' :: renderNat b.index
    ++ ',' :: renderString "timestamp" ++ ':' :: renderNat b.timestamp
    ++ ',' :: renderString "data" ++ ':' :: renderString b.data
    ++ ',' :: renderString "hash" ++ ':' :: renderNatList b.hash
    ++ ['\x7d']

/-- A JSON array of blocks (the encoding of `Vec<Block>`). -/
def renderBlockList (l : List Block) : List Char :=
  '[' :: commaSep (l.map renderBlock) ++ [']']

/-- The wire text of a `ClientMessage` (externally tagged enum encoding). -/
def renderMsg : ClientMessage → List Char
  | ClientMessage.QueryLatest => renderString "QueryLatest"
  | ClientMessage.QueryAll => renderString "QueryAll"
  | ClientMessage.ResponseLatest b =>
      '\x7b' :: renderString "ResponseLatest" ++ ':' :: renderBlock b ++ ['\x7d']
  | ClientMessage.ResponseAll c =>
      '\x7b' :: renderString "ResponseAll" ++ ':' :: renderBlockList c ++ ['\x7d']

/-- `serde_json::to_string` of a `ClientMessage` (it never fails on this
type). -/
def ClientMessage.to_string (m : ClientMessage) : String :=
  String.mk (renderMsg m)

/-- `serde_json::to_string` of a `Block`. -/
def Block.to_string (b : Block) : String := String.mk (renderBlock b)

/-! ## JSON wire decoding (model of `serde_json::from_str` at the derived
`Deserialize` instances)

The decoder is a recursive-descent reader of the same grammar the encoder
produces (objects with the fields in declaration order, no interior
whitespace), with the checks `serde_json` performs: the range checks
(`u8 < 256`, exactly 32 array elements for `[u8; 32]`, `u32 < 2^32`,
`u128 < 2^128`), the JSON prohibition of leading zeros in numerals, and
the rejection of raw control characters (below U+0020) inside strings.
Inputs outside this grammar are rejected with `none`; where the model
differs from the real `serde_json` it is strictly less accepting
(interior whitespace, reordered or unknown fields, surrogate-pair
escapes), so the set of inputs the model rejects is a superset of the
set `serde_json` rejects, and on every canonically encoded value the two
agree. -/

def isDigitChar (c : Char) : Bool := 48 ≤ c.toNat && c.toNat ≤ 57

def digitVal (c : Char) : Nat := c.toNat - 48

/-- Consume a maximal run of decimal digits, most significant first. -/
def parseNatGo : Nat → List Char → Nat × List Char
  | acc, [] => (acc, [])
  | acc, c :: cs =>
      if isDigitChar c then parseNatGo (acc * 10 + digitVal c) cs
      else (acc, c :: cs)

/-- Whether the input starts with a decimal digit. -/
def startsDigit : List Char → Bool
  | c :: _ => isDigitChar c
  | [] => false

/-- Parse an unsigned decimal integer: at least one digit, and a leading
zero must be the whole numeral (JSON forbids leading zeros, and
`serde_json` rejects them). -/
def parseNat : List Char → Option (Nat × List Char)
  | [] => none
  | c :: cs =>
      if isDigitChar c then
        if c == '0' && startsDigit cs then none
        else some (parseNatGo 0 (c :: cs))
      else none

/-- Hexadecimal digit value. -/
def hexVal (c : Char) : Option Nat :=
  if 48 ≤ c.toNat ∧ c.toNat ≤ 57 then some (c.toNat - 48)
  else if 97 ≤ c.toNat ∧ c.toNat ≤ 102 then some (c.toNat - 87)
  else if 65 ≤ c.toNat ∧ c.toNat ≤ 70 then some (c.toNat - 55)
  else none

/-- Parse the body of a JSON string up to the closing quote, undoing the
escapes. -/
def parseStringBody : List Char → Option (List Char × List Char)
  | [] => none
  | c :: cs =>
      if c = '"' then some ([], cs)
      else if c = '\\' then
        match cs with
        | [] => none
        | e :: cs2 =>
            if e = '"' then
              (parseStringBody cs2).map fun r => ('"' :: r.1, r.2)
            else if e = '\\' then
              (parseStringBody cs2).map fun r => ('\\' :: r.1, r.2)
            else if e = '/' then
              (parseStringBody cs2).map fun r => ('/' :: r.1, r.2)
            else if e = 'b' then
              (parseStringBody cs2).map fun r => (Char.ofNat 8 :: r.1, r.2)
            else if e = 't' then
              (parseStringBody cs2).map fun r => (Char.ofNat 9 :: r.1, r.2)
            else if e = 'n' then
              (parseStringBody cs2).map fun r => (Char.ofNat 10 :: r.1, r.2)
            else if e = 'f' then
              (parseStringBody cs2).map fun r => (Char.ofNat 12 :: r.1, r.2)
            else if e = 'r' then
              (parseStringBody cs2).map fun r => (Char.ofNat 13 :: r.1, r.2)
            else if e = 'u' then
              match cs2 with
              | h1 :: h2 :: h3 :: h4 :: cs3 =>
                  match hexVal h1, hexVal h2, hexVal h3, hexVal h4 with
                  | some a, some b, some c3, some d =>
                      let n := ((a * 16 + b) * 16 + c3) * 16 + d
                      if n < 0xd800 then
                        (parseStringBody cs3).map fun r => (Char.ofNat n :: r.1, r.2)
                      else none
                  | _, _, _, _ => none
              | _ => none
            else none
      else if c.toNat < 32 then none
      else (parseStringBody cs).map fun r => (c :: r.1, r.2)

/-- Match an exact literal. -/
def expectLit : List Char → List Char → Option (List Char)
  | [], cs => some cs
  | _ :: _, [] => none
  | l :: ls, c :: cs => if c = l then expectLit ls cs else none

/-- Elements of a numeric array after the opening bracket; `fuel` bounds the
number of elements (each consumes at least one character, so the remaining
input length suffices). -/
def parseNatListGo : Nat → List Char → Option (List Nat × List Char)
  | fuel, cs =>
      match parseNat cs with
      | none => none
      | some (n, rest) =>
          match rest with
          | ']' :: rest2 => some ([n], rest2)
          | ',' :: rest2 =>
              match fuel with
              | 0 => none
              | fuel + 1 =>
                  (parseNatListGo fuel rest2).map fun r => (n :: r.1, r.2)
          | _ => none

/-- Parse a JSON array of numbers. -/
def parseNatList (cs : List Char) : Option (List Nat × List Char) :=
  match cs with
  | '[' :: ']' :: rest => some ([], rest)
  | '[' :: rest => parseNatListGo rest.length rest
  | _ => none

/-- Parse a `Block` object in canonical form, with the range checks of serde. -/
def parseBlock (cs : List Char) : Option (Block × List Char) :=
  match expectLit ("\x7b\"prev_hash\":".data) cs with
  | none => none
  | some cs1 =>
  match parseNatList cs1 with
  | none => none
  | some (ph, cs2) =>
  if ph.length = 32 ∧ ∀ b ∈ ph, b < 256 then
  match expectLit (",\"index\":".data) cs2 with
  | none => none
  | some cs3 =>
  match parseNat cs3 with
  | none => none
  | some (ix, cs4) =>
  if ix < 2 ^ 32 then
  match expectLit (",\"timestamp\":".data) cs4 with
  | none => none
  | some cs5 =>
  match parseNat cs5 with
  | none => none
  | some (ts, cs6) =>
  if ts < 2 ^ 128 then
  match expectLit (",\"data\":\"".data) cs6 with
  | none => none
  | some cs7 =>
  match parseStringBody cs7 with
  | none => none
  | some (dat, cs8) =>
  match expectLit (",\"hash\":".data) cs8 with
  | none => none
  | some cs9 =>
  match parseNatList cs9 with
  | none => none
  | some (hs, cs10) =>
  if hs.length = 32 ∧ ∀ b ∈ hs, b < 256 then
  match cs10 with
  | '\x7d' :: rest =>
      some ({ prev_hash := ph, index := ix, timestamp := ts,
              data := String.mk dat, hash := hs }, rest)
  | _ => none
  else none
  else none
  else none
  else none

/-- Elements of a block array after the opening bracket. -/
def parseBlockListGo : Nat → List Char → Option (List Block × List Char)
  | fuel, cs =>
      match parseBlock cs with
      | none => none
      | some (b, rest) =>
          match rest with
          | ']' :: rest2 => some ([b], rest2)
          | ',' :: rest2 =>
              match fuel with
              | 0 => none
              | fuel + 1 =>
                  (parseBlockListGo fuel rest2).map fun r => (b :: r.1, r.2)
          | _ => none

/-- Parse a JSON array of blocks. -/
def parseBlockList (cs : List Char) : Option (List Block × List Char) :=
  match cs with
  | '[' :: ']' :: rest => some ([], rest)
  | '[' :: rest => parseBlockListGo rest.length rest
  | _ => none

/-- Parse one `ClientMessage` in the externally tagged encoding. -/
def parseMsg (cs : List Char) : Option (ClientMessage × List Char) :=
  match cs with
  | '"' :: rest =>
      match parseStringBody rest with
      | none => none
      | some (chars, rest2) =>
          if chars = "QueryLatest".data then
            some (ClientMessage.QueryLatest, rest2)
          else if chars = "QueryAll".data then
            some (ClientMessage.QueryAll, rest2)
          else none
  | c :: rest =>
      if c = '\x7b' then
        match expectLit ("\"ResponseLatest\":".data) rest with
        | some rest2 =>
            match parseBlock rest2 with
            | some (b, '\x7d' :: rest3) =>
                some (ClientMessage.ResponseLatest b, rest3)
            | _ => none
        | none =>
            match expectLit ("\"ResponseAll\":".data) rest with
            | some rest2 =>
                match parseBlockList rest2 with
                | some (bs, '\x7d' :: rest3) =>
                    some (ClientMessage.ResponseAll bs, rest3)
                | _ => none
            | none => none
      else none
  | [] => none

/-- `serde_json::from_str::<ClientMessage>`: parse one message and require
the input to be exhausted. -/
def ClientMessage.from_str (s : String) : Option ClientMessage :=
  match parseMsg s.data with
  | some (m, []) => some m
  | _ => none

/-- `serde_json::from_str::<Block>`. -/
def Block.from_str (s : String) : Option Block :=
  match parseBlock s.data with
  | some (b, []) => some b
  | _ => none

/-- `Handler::process`: the protocol state transition. -/
def Handler.process (self : Handler) (msg : ClientMessage) :
    Option (Option ClientMessage × Handler) :=
  match msg with
  | ClientMessage.QueryLatest =>
      self.latest_block.map fun b => (some (ClientMessage.ResponseLatest b), self)
  | ClientMessage.QueryAll =>
      some (some (ClientMessage.ResponseAll self.blockchain), self)
  | ClientMessage.ResponseLatest new_block =>
      (self.push_block new_block).map fun r => (none, r.2)
  | ClientMessage.ResponseAll new_chain =>
      (self.replace_chain new_chain).map fun r => (none, r.2)

/-- `Handler::handle`: decode, dispatch to `process`, re-encode any reply;
on decode failure log and return `None` with the state untouched. -/
def Handler.handle (self : Handler) (ser_in : String) :
    Option (Option String × Handler) :=
  match ClientMessage.from_str ser_in with
  | some de_in =>
      (self.process de_in).map fun r => (r.1.map ClientMessage.to_string, r.2)
  | none => some (none, self)

/-! ## Specification predicates -/

/-- The adjacency property of the spec (§3c): index continuity, hash
linkage, and hash recomputation of the later block. -/
def linked (prev cur : Block) : Prop :=
  cur.index = prev.index + 1 ∧ cur.prev_hash = prev.hash ∧
  cur.hash = Block.calculate_hash cur

/-- Well-formed 32-byte digest value. -/
@[reducible] def bytesWf (l : List Nat) : Prop := l.length = 32 ∧ ∀ b ∈ l, b < 256

/-- A block whose fields are in the ranges of the Rust types. -/
@[reducible] def Block.wf (b : Block) : Prop :=
  bytesWf b.prev_hash ∧ bytesWf b.hash ∧ b.index < 2 ^ 32 ∧
  b.timestamp < 2 ^ 128

/-- A message whose payload blocks are well formed. -/
@[reducible] def ClientMessage.wf : ClientMessage → Prop
  | ClientMessage.QueryLatest => True
  | ClientMessage.QueryAll => True
  | ClientMessage.ResponseLatest b => b.wf
  | ClientMessage.ResponseAll c => ∀ b ∈ c, b.wf

/-- States reachable from `Handler::new` through the public operations
(a panicking call produces no successor state). -/
inductive Reachable : Handler → Prop
  | new : Reachable Handler.new
  | push {s : Handler} {b : Block} {r : Bool} {t : Handler} :
      Reachable s → s.push_block b = some (r, t) → Reachable t
  | replace {s : Handler} {c : List Block} {r : Bool} {t : Handler} :
      Reachable s → s.replace_chain c = some (r, t) → Reachable t
  | processed {s : Handler} {m : ClientMessage} {out : Option ClientMessage}
      {t : Handler} :
      Reachable s → s.process m = some (out, t) → Reachable t
  | handled {s : Handler} {txt : String} {out : Option String} {t : Handler} :
      Reachable s → s.handle txt = some (out, t) → Reachable t

/-! ## Basic lemmas about blocks and chains -/

/-- The stored hash of a freshly constructed block is its recomputed hash
(`calculate_hash` does not read the `hash` field). -/
theorem hash_new (p : List Nat) (i t : Nat) (d : String) :
    (Block.new p i t d).hash = Block.calculate_hash (Block.new p i t d) := rfl

theorem validate_block_iff (b p : Block) :
    b.validate_block p = true ↔ linked p b := by
  simp [Block.validate_block, linked, and_assoc]

theorem chainStepsOk_iff (p : Block) (l : List Block) :
    chainStepsOk p l = true ↔ List.Chain linked p l := by
  induction l generalizing p with
  | nil => simp [chainStepsOk]
  | cons b rest ih =>
      simp [chainStepsOk, List.chain_cons, validate_block_iff, ih]

theorem validate_chain_eq_none (g : Block) (C : List Block) :
    Handler.validate_chain g C = none ↔ C = [] := by
  cases C with
  | nil => simp [Handler.validate_chain]
  | cons a l =>
      simp only [Handler.validate_chain]
      split <;> simp

theorem validate_chain_eq_some_true (g : Block) (C : List Block) :
    Handler.validate_chain g C = some true ↔
      C.head? = some g ∧ List.Chain' linked C := by
  cases C with
  | nil => simp [Handler.validate_chain]
  | cons a l =>
      simp only [Handler.validate_chain, List.head?_cons]
      by_cases ha : a = g
      · subst ha
        simp [List.chain'_cons', chainStepsOk_iff, List.Chain']
      · simp [ha, Ne.symm ha]

/-! ## Behaviour of the store operations -/

theorem push_block_cases {s : Handler} {b : Block} {r : Bool} {t : Handler}
    (h : s.push_block b = some (r, t)) :
    (r = true ∧ ∃ l, s.latest_block = some l ∧ b.validate_block l = true ∧
      t = { s with blockchain := s.blockchain ++ [b] }) ∨
    (r = false ∧ t = s) := by
  unfold Handler.push_block at h
  cases hl : s.latest_block with
  | none => rw [hl] at h; simp at h
  | some l =>
      rw [hl] at h
      simp only [Option.map_some'] at h
      by_cases hv : b.validate_block l = true
      · left
        rw [if_pos hv] at h
        obtain ⟨h1, h2⟩ := Prod.mk.injEq .. ▸ Option.some.injEq .. ▸ h
        exact ⟨h1.symm, l, rfl, hv, h2.symm⟩
      · right
        rw [if_neg hv] at h
        obtain ⟨h1, h2⟩ := Prod.mk.injEq .. ▸ Option.some.injEq .. ▸ h
        exact ⟨h1.symm, h2.symm⟩

theorem replace_chain_cases {s : Handler} {c : List Block} {r : Bool}
    {t : Handler} (h : s.replace_chain c = some (r, t)) :
    (r = true ∧ Handler.validate_chain s.genesis c = some true ∧
      s.blockchain.length < c.length ∧
      t = { s with blockchain := c }) ∨
    (r = false ∧ t = s) := by
  unfold Handler.replace_chain at h
  cases hv : Handler.validate_chain s.genesis c with
  | none => rw [hv] at h; simp at h
  | some ok =>
      rw [hv] at h
      simp only [Option.map_some'] at h
      by_cases hc : ok = true ∧ s.blockchain.length < c.length
      · left
        rw [if_pos (by simp [hc.1, hc.2])] at h
        obtain ⟨h1, h2⟩ := Prod.mk.injEq .. ▸ Option.some.injEq .. ▸ h
        exact ⟨h1.symm, by rw [hc.1], hc.2, h2.symm⟩
      · right
        rw [if_neg (by intro hcon; simp only [Bool.and_eq_true,
          decide_eq_true_eq] at hcon; exact hc hcon)] at h
        obtain ⟨h1, h2⟩ := Prod.mk.injEq .. ▸ Option.some.injEq .. ▸ h
        exact ⟨h1.symm, h2.symm⟩

theorem process_state {s : Handler} {m : ClientMessage}
    {out : Option ClientMessage} {t : Handler}
    (h : s.process m = some (out, t)) :
    t = s ∨ (∃ b r, s.push_block b = some (r, t)) ∨
      (∃ c r, s.replace_chain c = some (r, t)) := by
  cases m with
  | QueryLatest =>
      left
      simp only [Handler.process] at h
      cases hl : s.latest_block with
      | none => rw [hl] at h; simp at h
      | some l => rw [hl] at h; simp only [Option.map_some',
          Option.some.injEq, Prod.mk.injEq] at h; exact h.2.symm
  | QueryAll =>
      left
      simp only [Handler.process] at h
      simp only [Option.some.injEq, Prod.mk.injEq] at h
      exact h.2.symm
  | ResponseLatest b =>
      right; left
      simp only [Handler.process] at h
      cases hp : s.push_block b with
      | none => rw [hp] at h; simp at h
      | some r =>
          rw [hp] at h
          simp only [Option.map_some', Option.some.injEq, Prod.mk.injEq] at h
          exact ⟨b, r.1, by rw [hp, ← h.2]⟩
  | ResponseAll c =>
      right; right
      simp only [Handler.process] at h
      cases hp : s.replace_chain c with
      | none => rw [hp] at h; simp at h
      | some r =>
          rw [hp] at h
          simp only [Option.map_some', Option.some.injEq, Prod.mk.injEq] at h
          exact ⟨c, r.1, by rw [hp, ← h.2]⟩

theorem handle_state {s : Handler} {txt : String} {out : Option String}
    {t : Handler} (h : s.handle txt = some (out, t)) :
    t = s ∨ ∃ m out2, s.process m = some (out2, t) := by
  simp only [Handler.handle] at h
  cases hd : ClientMessage.from_str txt with
  | none =>
      left
      simp only [hd] at h
      simp only [Option.some.injEq, Prod.mk.injEq] at h
      exact h.2.symm
  | some m =>
      right
      simp only [hd] at h
      cases hp : s.process m with
      | none => rw [hp] at h; simp at h
      | some r =>
          rw [hp] at h
          simp only [Option.map_some', Option.some.injEq, Prod.mk.injEq] at h
          exact ⟨m, r.1, by rw [hp, ← h.2]⟩

/-! ## Round-trip of the decimal number encoding -/

/-- Abstract decimal digit string of `n` (what `renderNatGo` computes once
its fuel suffices). -/
def natChars (n : Nat) : List Char :=
  if _h : n < 10 then [digitChar n]
  else natChars (n / 10) ++ [digitChar (n % 10)]
termination_by n
decreasing_by exact Nat.div_lt_self (by omega) (by omega)

theorem natChars_lt {n : Nat} (h : n < 10) : natChars n = [digitChar n] := by
  rw [natChars, dif_pos h]

theorem natChars_ge {n : Nat} (h : 10 ≤ n) :
    natChars n = natChars (n / 10) ++ [digitChar (n % 10)] := by
  rw [natChars, dif_neg (by omega)]

theorem renderNatGo_eq (n : Nat) : ∀ (fuel : Nat) (acc : List Char),
    n ≤ fuel → renderNatGo fuel n acc = natChars n ++ acc := by
  induction n using Nat.strong_induction_on with
  | _ n ih =>
    intro fuel acc hle
    cases fuel with
    | zero =>
        have h0 : n = 0 := by omega
        subst h0
        rw [renderNatGo, natChars_lt (by omega)]
        rfl
    | succ f =>
        by_cases h : n < 10
        · rw [renderNatGo, if_pos h, natChars_lt h]
          rfl
        · rw [renderNatGo, if_neg h]
          have hdiv : n / 10 < n := Nat.div_lt_self (by omega) (by omega)
          have hle2 : n / 10 ≤ f := by omega
          rw [ih (n / 10) hdiv f (digitChar (n % 10) :: acc) hle2]
          conv_rhs => rw [natChars_ge (show (10 : Nat) ≤ n by omega)]
          simp

theorem renderNat_eq_natChars (n : Nat) : renderNat n = natChars n := by
  rw [renderNat, renderNatGo_eq n n [] (Nat.le_refl n), List.append_nil]

theorem digitChar_digit : ∀ d < 10,
    isDigitChar (digitChar d) = true ∧ digitVal (digitChar d) = d := by
  decide

theorem natChars_digits (n : Nat) :
    ∀ c ∈ natChars n, isDigitChar c = true := by
  induction n using Nat.strong_induction_on with
  | _ n ih =>
    by_cases h : n < 10
    · rw [natChars_lt h]
      intro c hc
      rw [List.mem_singleton] at hc
      subst hc
      exact (digitChar_digit n h).1
    · rw [natChars_ge (by omega)]
      intro c hc
      rcases List.mem_append.mp hc with h1 | h2
      · exact ih (n / 10) (Nat.div_lt_self (by omega) (by omega)) c h1
      · rw [List.mem_singleton] at h2
        subst h2
        exact (digitChar_digit _ (Nat.mod_lt _ (by omega))).1

theorem natChars_ne_nil (n : Nat) : natChars n ≠ [] := by
  by_cases h : n < 10
  · rw [natChars_lt h]; simp
  · rw [natChars_ge (by omega)]; simp

/-- Folding digits back into a value, as `parseNatGo` does. -/
def digitFold (acc : Nat) (ds : List Char) : Nat :=
  ds.foldl (fun a c => a * 10 + digitVal c) acc

theorem natChars_foldl (n : Nat) : ∀ acc : Nat,
    digitFold acc (natChars n) = acc * 10 ^ (natChars n).length + n := by
  induction n using Nat.strong_induction_on with
  | _ n ih =>
    intro acc
    by_cases h : n < 10
    · rw [natChars_lt h]
      simp [digitFold, (digitChar_digit n h).2]
    · rw [natChars_ge (by omega)]
      rw [digitFold, List.foldl_append]
      rw [show List.foldl (fun a c => a * 10 + digitVal c) acc
            (natChars (n / 10)) = digitFold acc (natChars (n / 10)) from rfl]
      rw [ih (n / 10) (Nat.div_lt_self (by omega) (by omega)) acc]
      simp only [List.foldl_cons, List.foldl_nil, List.length_append,
        List.length_singleton]
      rw [(digitChar_digit _ (Nat.mod_lt _ (by omega))).2]
      have hmod := Nat.div_add_mod n 10
      ring_nf
      omega

theorem parseNatGo_digits (ds : List Char) : ∀ (acc : Nat) (rest : List Char),
    (∀ c ∈ ds, isDigitChar c = true) →
    parseNatGo acc (ds ++ rest) = parseNatGo (digitFold acc ds) rest := by
  induction ds with
  | nil => intro acc rest _; rfl
  | cons c ds ih =>
      intro acc rest h
      rw [List.cons_append, parseNatGo, if_pos (h c (by simp))]
      rw [ih _ _ fun x hx => h x (by simp [hx])]
      rfl

theorem parseNatGo_stop (acc : Nat) (rest : List Char)
    (h : ∀ c ∈ rest.head?, isDigitChar c = false) :
    parseNatGo acc rest = (acc, rest) := by
  cases rest with
  | nil => rfl
  | cons c cs =>
      have hc := h c (by simp)
      rw [parseNatGo, if_neg (by simp [hc])]

theorem digitChar_eq_zero : ∀ d < 10, (digitChar d = '0' ↔ d = 0) := by
  decide

/-- Decimal rendering has no leading zero: the head digit is `0` only for
the numeral `0` itself. -/
theorem natChars_head_zero (n : Nat) : ∀ (c : Char) (ds : List Char),
    natChars n = c :: ds → c = '0' → n = 0 ∧ ds = [] := by
  induction n using Nat.strong_induction_on with
  | _ n ih =>
    intro c ds hcds hc
    by_cases h : n < 10
    · rw [natChars_lt h, List.cons.injEq] at hcds
      obtain ⟨hc2, hds⟩ := hcds
      refine ⟨?_, hds.symm⟩
      exact (digitChar_eq_zero n h).mp (hc2 ▸ hc)
    · obtain ⟨c2, ds2, hsub⟩ :=
        List.exists_cons_of_ne_nil (natChars_ne_nil (n / 10))
      rw [natChars_ge (by omega), hsub, List.cons_append,
        List.cons.injEq] at hcds
      have hdiv0 : n / 10 = 0 :=
        (ih (n / 10) (Nat.div_lt_self (by omega) (by omega)) c2 ds2 hsub
          (hcds.1 ▸ hc)).1
      omega

theorem startsDigit_eq_false (rest : List Char)
    (h : ∀ x ∈ rest.head?, isDigitChar x = false) :
    startsDigit rest = false := by
  cases rest with
  | nil => rfl
  | cons c cs => exact h c (by simp)

/-- Round-trip of the decimal encoding: parsing the rendered digits of `n`
followed by a non-digit yields `n` exactly. -/
theorem parseNat_render (n : Nat) (rest : List Char)
    (h : ∀ c ∈ rest.head?, isDigitChar c = false) :
    parseNat (renderNat n ++ rest) = some (n, rest) := by
  rw [renderNat_eq_natChars]
  obtain ⟨c, ds, hcds⟩ := List.exists_cons_of_ne_nil (natChars_ne_nil n)
  have hdig : ∀ x ∈ c :: ds, isDigitChar x = true := by
    rw [← hcds]; exact natChars_digits n
  rw [hcds, List.cons_append, parseNat, if_pos (hdig c (by simp))]
  rw [← List.cons_append, parseNatGo_digits _ _ _ hdig, parseNatGo_stop _ _ h]
  have hval := natChars_foldl n 0
  rw [hcds] at hval
  simp only [Nat.zero_mul, Nat.zero_add] at hval
  rw [hval]
  rw [if_neg]
  intro hcon
  rw [Bool.and_eq_true, beq_iff_eq] at hcon
  obtain ⟨hn0, hds⟩ := natChars_head_zero n c ds hcds hcon.1
  subst hds
  rw [List.nil_append, startsDigit_eq_false rest h] at hcon
  exact Bool.noConfusion hcon.2

/-! ## Round-trip of the string escaping -/

theorem hexVal_hexDigitChar : ∀ t < 32,
    hexVal (hexDigitChar (t / 16)) = some (t / 16) ∧
    hexVal (hexDigitChar (t % 16)) = some (t % 16) := by
  decide

theorem psb_quote (rest : List Char) :
    parseStringBody ('"' :: rest) = some ([], rest) := by
  rw [parseStringBody.eq_def]; rfl

theorem psb_escq (cs : List Char) :
    parseStringBody ('\\' :: '"' :: cs)
      = (parseStringBody cs).map fun r => ('"' :: r.1, r.2) := by
  rw [parseStringBody.eq_def]; rfl

theorem psb_escbs (cs : List Char) :
    parseStringBody ('\\' :: '\\' :: cs)
      = (parseStringBody cs).map fun r => ('\\' :: r.1, r.2) := by
  rw [parseStringBody.eq_def]; rfl

theorem psb_b (cs : List Char) :
    parseStringBody ('\\' :: 'b' :: cs)
      = (parseStringBody cs).map fun r => (Char.ofNat 8 :: r.1, r.2) := by
  rw [parseStringBody.eq_def]; rfl

theorem psb_t (cs : List Char) :
    parseStringBody ('\\' :: 't' :: cs)
      = (parseStringBody cs).map fun r => (Char.ofNat 9 :: r.1, r.2) := by
  rw [parseStringBody.eq_def]; rfl

theorem psb_n (cs : List Char) :
    parseStringBody ('\\' :: 'n' :: cs)
      = (parseStringBody cs).map fun r => (Char.ofNat 10 :: r.1, r.2) := by
  rw [parseStringBody.eq_def]; rfl

theorem psb_f (cs : List Char) :
    parseStringBody ('\\' :: 'f' :: cs)
      = (parseStringBody cs).map fun r => (Char.ofNat 12 :: r.1, r.2) := by
  rw [parseStringBody.eq_def]; rfl

theorem psb_r (cs : List Char) :
    parseStringBody ('\\' :: 'r' :: cs)
      = (parseStringBody cs).map fun r => (Char.ofNat 13 :: r.1, r.2) := by
  rw [parseStringBody.eq_def]; rfl

theorem psb_plain (c : Char) (h1 : ¬ c = '"') (h2 : ¬ c = '\\')
    (h3 : ¬ c.toNat < 32) (cs : List Char) :
    parseStringBody (c :: cs)
      = (parseStringBody cs).map fun r => (c :: r.1, r.2) := by
  rw [parseStringBody.eq_def]
  simp [h1, h2, h3]

theorem psb_u (a b : Char) (x y : Nat) (ha : hexVal a = some x)
    (hb : hexVal b = some y)
    (hlt : ((0 * 16 + 0) * 16 + x) * 16 + y < 0xd800) (cs : List Char) :
    parseStringBody ('\\' :: 'u' :: '0' :: '0' :: a :: b :: cs)
      = (parseStringBody cs).map fun r =>
          (Char.ofNat (((0 * 16 + 0) * 16 + x) * 16 + y) :: r.1, r.2) := by
  rw [parseStringBody.eq_def]
  simp only [reduceIte]
  rw [show hexVal '0' = some 0 from rfl, ha, hb]
  have hlt2 : x * 16 + y < 55296 := by omega
  simp [hlt2]

/-- Unescaping undoes escaping: parsing the escaped characters of `s`
followed by the closing quote returns exactly `s`. -/
theorem parseStringBody_escape (s : List Char) : ∀ rest : List Char,
    parseStringBody ((s.map escapeChar).flatten ++ '"' :: rest)
      = some (s, rest) := by
  induction s with
  | nil =>
      intro rest
      simpa using psb_quote rest
  | cons c cs ih =>
      intro rest
      rw [List.map_cons, List.flatten_cons, List.append_assoc]
      by_cases h1 : c = '"'
      · subst h1
        rw [show escapeChar '"' = ['\\', '"'] from rfl]
        simp [psb_escq, ih rest]
      · by_cases h2 : c = '\\'
        · subst h2
          rw [show escapeChar '\\' = ['\\', '\\'] from rfl]
          simp [psb_escbs, ih rest]
        · by_cases h8 : c.toNat = 8
          · have hc : Char.ofNat 8 = c := by rw [← h8, Char.ofNat_toNat]
            rw [show escapeChar c = ['\\', 'b'] by
              simp [escapeChar, h1, h2, h8]]
            simp only [List.cons_append, List.nil_append, psb_b, ih rest, Option.map_some']
            rw [hc]
          · by_cases h9 : c.toNat = 9
            · have hc : Char.ofNat 9 = c := by rw [← h9, Char.ofNat_toNat]
              rw [show escapeChar c = ['\\', 't'] by
                simp [escapeChar, h1, h2, h8, h9]]
              simp only [List.cons_append, List.nil_append, psb_t, ih rest, Option.map_some']
              rw [hc]
            · by_cases h10 : c.toNat = 10
              · have hc : Char.ofNat 10 = c := by
                  rw [← h10, Char.ofNat_toNat]
                rw [show escapeChar c = ['\\', 'n'] by
                  simp [escapeChar, h1, h2, h8, h9, h10]]
                simp only [List.cons_append, List.nil_append, psb_n, ih rest, Option.map_some']
                rw [hc]
              · by_cases h12 : c.toNat = 12
                · have hc : Char.ofNat 12 = c := by
                    rw [← h12, Char.ofNat_toNat]
                  rw [show escapeChar c = ['\\', 'f'] by
                    simp [escapeChar, h1, h2, h8, h9, h10, h12]]
                  simp only [List.cons_append, List.nil_append, psb_f, ih rest, Option.map_some']
                  rw [hc]
                · by_cases h13 : c.toNat = 13
                  · have hc : Char.ofNat 13 = c := by
                      rw [← h13, Char.ofNat_toNat]
                    rw [show escapeChar c = ['\\', 'r'] by
                      simp [escapeChar, h1, h2, h8, h9, h10, h12, h13]]
                    simp only [List.cons_append, List.nil_append, psb_r, ih rest, Option.map_some']
                    rw [hc]
                  · by_cases h32 : c.toNat < 32
                    · have hhex := hexVal_hexDigitChar c.toNat h32
                      rw [show escapeChar c = ['\\', 'u', '0', '0',
                            hexDigitChar (c.toNat / 16),
                            hexDigitChar (c.toNat % 16)] by
                        simp [escapeChar, h1, h2, h8, h9, h10, h12, h13,
                          h32]]
                      have hn : ((0 * 16 + 0) * 16 + c.toNat / 16) * 16
                          + c.toNat % 16 = c.toNat := by
                        have := Nat.div_add_mod c.toNat 16
                        omega
                      rw [List.cons_append, List.cons_append,
                        List.cons_append, List.cons_append,
                        List.cons_append, List.cons_append,
                        List.nil_append]
                      rw [psb_u _ _ _ _ hhex.1 hhex.2 (by omega) _]
                      rw [ih rest]
                      simp only [Option.map_some']
                      rw [hn, Char.ofNat_toNat]
                    · rw [show escapeChar c = [c] by
                        simp [escapeChar, h1, h2, h8, h9, h10, h12, h13,
                          h32]]
                      rw [List.cons_append, List.nil_append,
                        psb_plain c h1 h2 h32, ih rest]
                      rfl

/-! ## Round-trip of the JSON arrays -/

theorem expectLit_append (lit : List Char) : ∀ rest : List Char,
    expectLit lit (lit ++ rest) = some rest := by
  induction lit with
  | nil => intro rest; rfl
  | cons c cs ih =>
      intro rest
      rw [List.cons_append, expectLit, if_pos rfl]
      exact ih rest

theorem renderNat_ne_nil (n : Nat) : renderNat n ≠ [] := by
  rw [renderNat_eq_natChars]; exact natChars_ne_nil n

theorem commaSep_length : ∀ ps : List (List Char), (∀ p ∈ ps, p ≠ []) →
    ps.length ≤ (commaSep ps).length
  | [], _ => by simp [commaSep]
  | [x], h => by
      have hx := List.length_pos.mpr (h x (by simp))
      simp only [commaSep, List.length_singleton]
      omega
  | x :: y :: t, h => by
      have ih := commaSep_length (y :: t) fun p hp => h p (by simp [hp])
      have hx := List.length_pos.mpr (h x (by simp))
      rw [commaSep]
      simp only [List.length_append, List.length_cons] at ih ⊢
      omega

theorem commaSep_cons (p : List Char) (ps : List (List Char)) :
    ∃ q, commaSep (p :: ps) = p ++ q := by
  cases ps with
  | nil => exact ⟨[], by simp [commaSep]⟩
  | cons y t => exact ⟨',' :: commaSep (y :: t), rfl⟩

theorem head_append_not_digit (c : Char) (cs X : List Char)
    (h : isDigitChar c = false) :
    ∀ x ∈ (((c :: cs) ++ X).head?), isDigitChar x = false := by
  intro x hx
  rw [List.cons_append, List.head?_cons, Option.mem_def,
    Option.some.injEq] at hx
  subst hx
  exact h

theorem parseNatListGo_render : ∀ (l : List Nat) (fuel : Nat)
    (rest : List Char), l ≠ [] → l.length ≤ fuel + 1 →
    parseNatListGo fuel (commaSep (l.map renderNat) ++ ']' :: rest)
      = some (l, rest)
  | [], _, _, h, _ => absurd rfl h
  | [n], fuel, rest, _, _ => by
      rw [List.map_singleton, show commaSep [renderNat n] = renderNat n
        from rfl]
      rw [parseNatListGo]
      rw [parseNat_render n (']' :: rest) (by
        intro c hc
        rw [List.head?_cons, Option.mem_def, Option.some.injEq] at hc
        subst hc
        decide)]
      rfl
  | n :: m :: t, fuel, rest, _, hle => by
      rw [List.map_cons, List.map_cons, commaSep, List.append_assoc,
        List.cons_append]
      rw [parseNatListGo]
      rw [parseNat_render n _ (by
        exact head_append_not_digit ',' [] _ (by decide))]
      cases fuel with
      | zero => simp only [List.length_cons] at hle; omega
      | succ f =>
          have ih := parseNatListGo_render (m :: t) f rest (by simp)
            (by simp only [List.length_cons] at hle ⊢; omega)
          rw [List.map_cons] at ih
          simp only [List.nil_append]
          rw [ih]
          rfl

theorem parseNatList_cons (c : Char) (h : ¬ c = ']') (rest1 : List Char) :
    parseNatList ('[' :: c :: rest1)
      = parseNatListGo (c :: rest1).length (c :: rest1) := by
  rw [parseNatList.eq_def]
  split
  · rename_i heq
    rw [List.cons.injEq, List.cons.injEq] at heq
    exact absurd heq.2.1 h
  · rename_i heq
    rw [List.cons.injEq] at heq
    rw [heq.2]
  · rename_i hno1 hno2
    exact absurd rfl (hno2 (c :: rest1))

/-- Round-trip of the numeric array encoding. -/
theorem parseNatList_render (l : List Nat) (rest : List Char) :
    parseNatList (renderNatList l ++ rest) = some (l, rest) := by
  cases l with
  | nil => rfl
  | cons n t =>
      obtain ⟨q, hq⟩ := commaSep_cons (renderNat n) (t.map renderNat)
      obtain ⟨c, ds, hcds⟩ :=
        List.exists_cons_of_ne_nil (renderNat_ne_nil n)
      have hcdig : isDigitChar c = true := by
        have hmem : c ∈ natChars n := by
          rw [← renderNat_eq_natChars, hcds]; simp
        exact natChars_digits n c hmem
      have hcne : ¬ c = ']' := by
        intro hc
        subst hc
        simp [isDigitChar] at hcdig
      have hshape : renderNatList (n :: t) ++ rest
          = '[' :: c :: ((ds ++ q) ++ ']' :: rest) := by
        rw [renderNatList, List.map_cons, hq, hcds]
        simp
      rw [hshape, parseNatList_cons c hcne]
      have hback : c :: ((ds ++ q) ++ ']' :: rest)
          = commaSep ((n :: t).map renderNat) ++ ']' :: rest := by
        rw [List.map_cons, hq, hcds]
        simp
      rw [hback]
      apply parseNatListGo_render (n :: t) _ rest (by simp)
      have hlen := commaSep_length ((n :: t).map renderNat) (by
        intro p hp
        rw [List.mem_map] at hp
        obtain ⟨a, _, ha⟩ := hp
        rw [← ha]
        exact renderNat_ne_nil a)
      rw [List.length_map] at hlen
      simp only [List.length_append, List.length_cons] at hlen ⊢
      omega

/-! ## Round-trip of the Block object encoding -/

theorem renderKey1 : renderString "prev_hash" = ['\"', 'p', 'r', 'e', 'v', '_', 'h', 'a', 's', 'h', '\"'] := by
  decide

theorem renderKey2 : renderString "index" = ['\"', 'i', 'n', 'd', 'e', 'x', '\"'] := by
  decide

theorem renderKey3 : renderString "timestamp" = ['\"', 't', 'i', 'm', 'e', 's', 't', 'a', 'm', 'p', '\"'] := by
  decide

theorem renderKey4 : renderString "data" = ['\"', 'd', 'a', 't', 'a', '\"'] := by
  decide

theorem renderKey5 : renderString "hash" = ['\"', 'h', 'a', 's', 'h', '\"'] := by
  decide

theorem litData1 : ("\x7b\"prev_hash\":".data : List Char) = ['\x7b', '\"', 'p', 'r', 'e', 'v', '_', 'h', 'a', 's', 'h', '\"', ':'] := by
  decide

theorem litData2 : (",\"index\":".data : List Char) = [',', '\"', 'i', 'n', 'd', 'e', 'x', '\"', ':'] := by
  decide

theorem litData3 : (",\"timestamp\":".data : List Char) = [',', '\"', 't', 'i', 'm', 'e', 's', 't', 'a', 'm', 'p', '\"', ':'] := by
  decide

theorem litData4 : (",\"data\":\"".data : List Char) = [',', '\"', 'd', 'a', 't', 'a', '\"', ':', '\"'] := by
  decide

theorem litData5 : (",\"hash\":".data : List Char) = [',', '\"', 'h', 'a', 's', 'h', '\"', ':'] := by
  decide

/-- Shape of the rendered block: the canonical chunks in parse order. -/
theorem renderBlock_shape (b : Block) (rest : List Char) :
    renderBlock b ++ rest
      = "\x7b\"prev_hash\":".data ++ (renderNatList b.prev_hash ++ (",\"index\":".data ++ (renderNat b.index ++ (",\"timestamp\":".data ++ (renderNat b.timestamp ++ (",\"data\":\"".data ++ ((b.data.data.map escapeChar).flatten ++ ('\"' :: (",\"hash\":".data ++ (renderNatList b.hash ++ ('\x7d' :: rest))))))))))) := by
  rw [renderBlock, renderKey1, renderKey2, renderKey3, renderKey4,
    renderKey5, renderString, litData1, litData2, litData3, litData4,
    litData5]
  simp [List.append_assoc]

/-- Round-trip of the Block encoding: parsing the rendered canonical
object of a well-formed block returns the block itself. -/
theorem parseBlock_render (b : Block) (hwf : b.wf) (rest : List Char) :
    parseBlock (renderBlock b ++ rest) = some (b, rest) := by
  obtain ⟨hpw, hhw, hix, hts⟩ := hwf
  unfold bytesWf at hpw hhw
  have hp1 : parseNat (renderNat b.index ++ (",\"timestamp\":".data ++ (renderNat b.timestamp ++ (",\"data\":\"".data ++ ((b.data.data.map escapeChar).flatten ++ ('\"' :: (",\"hash\":".data ++ (renderNatList b.hash ++ ('\x7d' :: rest)))))))))
      = some (b.index, (",\"timestamp\":".data ++ (renderNat b.timestamp ++ (",\"data\":\"".data ++ ((b.data.data.map escapeChar).flatten ++ ('\"' :: (",\"hash\":".data ++ (renderNatList b.hash ++ ('\x7d' :: rest))))))))) :=
    parseNat_render _ _ (head_append_not_digit ',' _ _ (by decide))
  have hp2 : parseNat (renderNat b.timestamp ++ (",\"data\":\"".data ++ ((b.data.data.map escapeChar).flatten ++ ('\"' :: (",\"hash\":".data ++ (renderNatList b.hash ++ ('\x7d' :: rest)))))))
      = some (b.timestamp, (",\"data\":\"".data ++ ((b.data.data.map escapeChar).flatten ++ ('\"' :: (",\"hash\":".data ++ (renderNatList b.hash ++ ('\x7d' :: rest))))))) :=
    parseNat_render _ _ (head_append_not_digit ',' _ _ (by decide))
  rw [renderBlock_shape]
  simp only [parseBlock, expectLit_append, parseNatList_render, hp1, hp2,
    parseStringBody_escape, hpw, hix, hts, hhw, and_self, if_true,
    ite_true, reduceIte]
  rw [if_pos ⟨trivial, hpw.2⟩, if_pos ⟨trivial, hhw.2⟩]

/-! ## Round-trip of the block array and message encodings -/

theorem renderBlock_ne_nil (b : Block) : renderBlock b ≠ [] := by
  simp [renderBlock]

theorem parseBlockListGo_render : ∀ (l : List Block) (fuel : Nat)
    (rest : List Char), l ≠ [] → (∀ b ∈ l, b.wf) → l.length ≤ fuel + 1 →
    parseBlockListGo fuel (commaSep (l.map renderBlock) ++ ']' :: rest)
      = some (l, rest)
  | [], _, _, h, _, _ => absurd rfl h
  | [b], fuel, rest, _, hwf, _ => by
      rw [List.map_singleton, show commaSep [renderBlock b] = renderBlock b
        from rfl]
      rw [parseBlockListGo]
      rw [parseBlock_render b (hwf b (by simp)) (']' :: rest)]
      rfl
  | b :: b2 :: t, fuel, rest, _, hwf, hle => by
      rw [List.map_cons, List.map_cons, commaSep, List.append_assoc,
        List.cons_append]
      rw [parseBlockListGo]
      rw [parseBlock_render b (hwf b (by simp)) _]
      cases fuel with
      | zero => simp only [List.length_cons] at hle; omega
      | succ f =>
          have ih := parseBlockListGo_render (b2 :: t) f rest (by simp)
            (fun x hx => hwf x (by simp [hx]))
            (by simp only [List.length_cons] at hle ⊢; omega)
          rw [List.map_cons] at ih
          simp only [List.nil_append]
          rw [ih]
          rfl

theorem parseBlockList_cons (c : Char) (h : ¬ c = ']') (rest1 : List Char) :
    parseBlockList ('[' :: c :: rest1)
      = parseBlockListGo (c :: rest1).length (c :: rest1) := by
  rw [parseBlockList.eq_def]
  split
  · rename_i heq
    rw [List.cons.injEq, List.cons.injEq] at heq
    exact absurd heq.2.1 h
  · rename_i heq
    rw [List.cons.injEq] at heq
    rw [heq.2]
  · rename_i hno1 hno2
    exact absurd rfl (hno2 (c :: rest1))

/-- Round-trip of the chain (block array) encoding. -/
theorem parseBlockList_render (l : List Block) (hwf : ∀ b ∈ l, b.wf)
    (rest : List Char) :
    parseBlockList (renderBlockList l ++ rest) = some (l, rest) := by
  cases l with
  | nil => rfl
  | cons b t =>
      obtain ⟨q, hq⟩ := commaSep_cons (renderBlock b) (t.map renderBlock)
      obtain ⟨c, ds, hcds⟩ :=
        List.exists_cons_of_ne_nil (renderBlock_ne_nil b)
      have hcbrace : c = '\x7b' := by
        have : renderBlock b = '\x7b'
            :: (renderString "prev_hash" ++ ':' :: renderNatList b.prev_hash
            ++ ',' :: renderString "index" ++ ':' :: renderNat b.index
            ++ ',' :: renderString "timestamp" ++ ':'
                :: renderNat b.timestamp
            ++ ',' :: renderString "data" ++ ':' :: renderString b.data
            ++ ',' :: renderString "hash" ++ ':' :: renderNatList b.hash
            ++ ['\x7d']) := rfl
        rw [this] at hcds
        exact (List.cons.injEq .. ▸ hcds).1.symm
      have hcne : ¬ c = ']' := by rw [hcbrace]; decide
      have hshape : renderBlockList (b :: t) ++ rest
          = '[' :: c :: ((ds ++ q) ++ ']' :: rest) := by
        rw [renderBlockList, List.map_cons, hq, hcds]
        simp
      rw [hshape, parseBlockList_cons c hcne]
      have hback : c :: ((ds ++ q) ++ ']' :: rest)
          = commaSep ((b :: t).map renderBlock) ++ ']' :: rest := by
        rw [List.map_cons, hq, hcds]
        simp
      rw [hback]
      apply parseBlockListGo_render (b :: t) _ rest (by simp) hwf
      have hlen := commaSep_length ((b :: t).map renderBlock) (by
        intro p hp
        rw [List.mem_map] at hp
        obtain ⟨a, _, ha⟩ := hp
        rw [← ha]
        exact renderBlock_ne_nil a)
      rw [List.length_map] at hlen
      simp only [List.length_append, List.length_cons] at hlen ⊢
      omega

/-! ## Round-trip of the message encoding -/

set_option maxHeartbeats 1000000 in
theorem parseMsg_responseLatest (b : Block) (hwf : b.wf) :
    parseMsg (renderMsg (ClientMessage.ResponseLatest b))
      = some (ClientMessage.ResponseLatest b, []) := by
  show (match parseBlock (renderBlock b ++ ['\x7d']) with
      | some (b2, '\x7d' :: rest3) =>
          some (ClientMessage.ResponseLatest b2, rest3)
      | _ => none)
    = some (ClientMessage.ResponseLatest b, [])
  rw [parseBlock_render b hwf ['\x7d']]
  rfl

set_option maxHeartbeats 1000000 in
theorem parseMsg_responseAll (C : List Block) (hwf : ∀ b ∈ C, b.wf) :
    parseMsg (renderMsg (ClientMessage.ResponseAll C))
      = some (ClientMessage.ResponseAll C, []) := by
  show (match parseBlockList (renderBlockList C ++ ['\x7d']) with
      | some (bs, '\x7d' :: rest3) =>
          some (ClientMessage.ResponseAll bs, rest3)
      | _ => none)
    = some (ClientMessage.ResponseAll C, [])
  rw [parseBlockList_render C hwf ['\x7d']]
  rfl

/-! ## The store invariant -/

/-- The invariant of §3: the chain is non-empty, starts with the genesis
constant, is pairwise linked, and the stored genesis is the constant. -/
def Inv (s : Handler) : Prop :=
  s.genesis = genesisBlock ∧ s.blockchain ≠ [] ∧
  s.blockchain.head? = some genesisBlock ∧ List.Chain' linked s.blockchain

theorem inv_new : Inv Handler.new :=
  ⟨rfl, List.cons_ne_nil _ _, rfl, List.chain'_singleton _⟩

theorem inv_push {s : Handler} {b : Block} {r : Bool} {t : Handler}
    (hs : Inv s) (h : s.push_block b = some (r, t)) : Inv t := by
  rcases push_block_cases h with ⟨_, l, hl, hv, ht⟩ | ⟨_, ht⟩
  · subst ht
    obtain ⟨hg, hne, hhead, hchain⟩ := hs
    refine ⟨hg, by simp, ?_, ?_⟩
    · cases hsb : s.blockchain with
      | nil => exact absurd hsb hne
      | cons a t1 => rw [hsb] at hhead; simpa using hhead
    · apply List.Chain'.append hchain (List.chain'_singleton _)
      intro x hx y hy
      unfold Handler.latest_block at hl
      rw [hl] at hx
      simp only [Option.mem_def, Option.some.injEq] at hx
      simp only [List.head?_cons, Option.mem_def, Option.some.injEq] at hy
      subst hx; subst hy
      exact (validate_block_iff _ _).mp hv
  · subst ht; exact hs

theorem inv_replace {s : Handler} {c : List Block} {r : Bool} {t : Handler}
    (hs : Inv s) (h : s.replace_chain c = some (r, t)) : Inv t := by
  rcases replace_chain_cases h with ⟨_, hv, _, ht⟩ | ⟨_, ht⟩
  · subst ht
    obtain ⟨hg, _, _, _⟩ := hs
    rw [hg] at hv
    obtain ⟨hhead, hchain⟩ := (validate_chain_eq_some_true _ _).mp hv
    refine ⟨hg, ?_, hhead, hchain⟩
    intro hcnil
    rw [show c = [] from hcnil] at hhead
    exact Option.noConfusion hhead
  · subst ht; exact hs

theorem inv_process {s : Handler} {m : ClientMessage}
    {out : Option ClientMessage} {t : Handler}
    (hs : Inv s) (h : s.process m = some (out, t)) : Inv t := by
  rcases process_state h with ht | ⟨b, r, hp⟩ | ⟨c, r, hp⟩
  · subst ht; exact hs
  · exact inv_push hs hp
  · exact inv_replace hs hp

theorem inv_handle {s : Handler} {txt : String} {out : Option String}
    {t : Handler} (hs : Inv s) (h : s.handle txt = some (out, t)) : Inv t := by
  rcases handle_state h with ht | ⟨m, out2, hp⟩
  · subst ht; exact hs
  · exact inv_process hs hp

theorem inv_reachable {s : Handler} (h : Reachable s) : Inv s := by
  induction h with
  | new => exact inv_new
  | push _ hstep ih => exact inv_push ih hstep
  | replace _ hstep ih => exact inv_replace ih hstep
  | processed _ hstep ih => exact inv_process ih hstep
  | handled _ hstep ih => exact inv_handle ih hstep

/-! ## Claim theorems -/

/-- C1: `replace_chain(C)` returns `true` iff `validate_chain(genesis, C)`
holds and `len(C) > len(local chain)` (strict); on `true` the local chain
becomes exactly `C` (atomic swap), on `false` the state is unchanged. -/
theorem replace_chain_characterisation (s : Handler) (C : List Block) :
    ((∃ t, s.replace_chain C = some (true, t)) ↔
      (Handler.validate_chain s.genesis C = some true ∧
        s.blockchain.length < C.length)) ∧
    (∀ t, s.replace_chain C = some (true, t) →
      t.blockchain = C ∧ t.genesis = s.genesis) ∧
    (∀ t, s.replace_chain C = some (false, t) → t = s) := by
  refine ⟨⟨?_, ?_⟩, ?_, ?_⟩
  · rintro ⟨t, ht⟩
    rcases replace_chain_cases ht with ⟨_, hv, hl, _⟩ | ⟨hfalse, _⟩
    · exact ⟨hv, hl⟩
    · exact Bool.noConfusion hfalse
  · rintro ⟨hv, hl⟩
    refine ⟨{ s with blockchain := C }, ?_⟩
    unfold Handler.replace_chain
    rw [hv]
    simp [hl]
  · intro t ht
    rcases replace_chain_cases ht with ⟨_, _, _, h4⟩ | ⟨hfalse, _⟩
    · exact ⟨by rw [h4], by rw [h4]⟩
    · exact Bool.noConfusion hfalse
  · intro t ht
    rcases replace_chain_cases ht with ⟨hfalse, _, _, _⟩ | ⟨_, h2⟩
    · exact Bool.noConfusion hfalse
    · exact h2

/-- C1 witness: the characterisation applied to the freshly created store
and the singleton genesis chain. -/
theorem replace_chain_characterisation_witness :
    ((∃ t, Handler.new.replace_chain [genesisBlock] = some (true, t)) ↔
      (Handler.validate_chain Handler.new.genesis [genesisBlock] = some true ∧
        Handler.new.blockchain.length < [genesisBlock].length)) ∧
    (∀ t, Handler.new.replace_chain [genesisBlock] = some (true, t) →
      t.blockchain = [genesisBlock] ∧ t.genesis = Handler.new.genesis) ∧
    (∀ t, Handler.new.replace_chain [genesisBlock] = some (false, t) →
      t = Handler.new) :=
  replace_chain_characterisation Handler.new [genesisBlock]

/-- C2: for a non-empty chain, `validate_chain(g, C)` returns `true` iff
`C[0] = g` and every later block is linked to its predecessor (index
continuity, hash linkage, hash recomputation). -/
theorem validate_chain_characterisation (g : Block) (C : List Block)
    (hne : C ≠ []) :
    Handler.validate_chain g C = some true ↔
      (C.head? = some g ∧
        ∀ (i : Nat) (h : i < C.length), 1 ≤ i →
          linked (C.get ⟨i - 1, Nat.lt_of_le_of_lt (Nat.sub_le i 1) h⟩)
                 (C.get ⟨i, h⟩)) := by
  rw [validate_chain_eq_some_true, List.chain'_iff_get]
  refine and_congr_right fun _ => ⟨?_, ?_⟩
  · intro hc i h h1
    have h2 : i - 1 < C.length - 1 := by omega
    have h3 := hc (i - 1) h2
    have heq : i - 1 + 1 = i := by omega
    simp only [heq] at h3
    exact h3
  · intro hidx i h
    have h3 := hidx (i + 1) (by omega) (by omega)
    have heq : i + 1 - 1 = i := by omega
    simp only [heq] at h3
    exact h3

/-- C2 witness: the characterisation applied to the singleton genesis
chain (which validates). -/
theorem validate_chain_characterisation_witness :
    ([genesisBlock] ≠ ([] : List Block)) ∧
    (Handler.validate_chain genesisBlock [genesisBlock] = some true ↔
      (([genesisBlock] : List Block).head? = some genesisBlock ∧
        ∀ (i : Nat) (h : i < [genesisBlock].length), 1 ≤ i →
          linked (([genesisBlock] : List Block).get
                    ⟨i - 1, Nat.lt_of_le_of_lt (Nat.sub_le i 1) h⟩)
                 (([genesisBlock] : List Block).get ⟨i, h⟩))) :=
  ⟨List.cons_ne_nil _ _,
    validate_chain_characterisation genesisBlock [genesisBlock]
      (List.cons_ne_nil _ _)⟩

/-- C3 counterexample: on the empty chain `validate_chain` does not return
`false` — the `expect("chain empty")` panics, modelled by `none`. -/
theorem validate_chain_empty_panics :
    Handler.validate_chain genesisBlock [] = none ∧
    Handler.validate_chain genesisBlock [] ≠ some false :=
  ⟨rfl, by simp [Handler.validate_chain]⟩

/-- C3 amended: `validate_chain` panics (fails fatally, not returning
`false`) on the empty chain, and returns `false` whenever the first
element differs from genesis, regardless of the linkage of the rest. -/
theorem validate_chain_empty_and_wrong_head (g first : Block)
    (rest : List Block) :
    Handler.validate_chain g [] = none ∧
    (first ≠ g → Handler.validate_chain g (first :: rest) = some false) := by
  refine ⟨rfl, fun hne => ?_⟩
  simp [Handler.validate_chain, hne]

/-- C3 amended witness: a block differing from genesis (index 1) is
rejected as chain head. -/
theorem validate_chain_empty_and_wrong_head_witness :
    ((⟨zeroHash, 1, 0, "x", zeroHash⟩ : Block) ≠ genesisBlock) ∧
    Handler.validate_chain genesisBlock
        [(⟨zeroHash, 1, 0, "x", zeroHash⟩ : Block)] = some false := by
  have hne : (⟨zeroHash, 1, 0, "x", zeroHash⟩ : Block) ≠ genesisBlock :=
    fun h => Nat.one_ne_zero (congrArg Block.index h)
  exact ⟨hne,
    (validate_chain_empty_and_wrong_head genesisBlock _ []).2 hne⟩

/-- C4: `push_block(b)` returns `true` iff `b` validates against the
current latest block; on success the chain grows by exactly one and `b`
becomes the latest block; on failure the state is unchanged. -/
theorem push_block_characterisation (s : Handler) (b : Block) :
    ((∃ t, s.push_block b = some (true, t)) ↔
      (∃ l, s.latest_block = some l ∧ b.validate_block l = true)) ∧
    (∀ t, s.push_block b = some (true, t) →
      t.blockchain.length = s.blockchain.length + 1 ∧
      t.latest_block = some b ∧ t.blockchain = s.blockchain ++ [b] ∧
      t.genesis = s.genesis) ∧
    (∀ t, s.push_block b = some (false, t) → t = s) := by
  refine ⟨⟨?_, ?_⟩, ?_, ?_⟩
  · rintro ⟨t, ht⟩
    rcases push_block_cases ht with ⟨_, l, hl, hv, _⟩ | ⟨hfalse, _⟩
    · exact ⟨l, hl, hv⟩
    · exact Bool.noConfusion hfalse
  · rintro ⟨l, hl, hv⟩
    refine ⟨{ s with blockchain := s.blockchain ++ [b] }, ?_⟩
    unfold Handler.push_block
    rw [hl]
    simp [hv]
  · intro t ht
    rcases push_block_cases ht with ⟨_, l, hl, hv, h4⟩ | ⟨hfalse, _⟩
    · subst h4
      exact ⟨by simp, by simp [Handler.latest_block], rfl, rfl⟩
    · exact Bool.noConfusion hfalse
  · intro t ht
    rcases push_block_cases ht with ⟨hfalse, _⟩ | ⟨_, h2⟩
    · exact Bool.noConfusion hfalse
    · exact h2

/-- C4 witness: the characterisation applied to the freshly created store
and the genesis block itself. -/
theorem push_block_characterisation_witness :
    ((∃ t, Handler.new.push_block genesisBlock = some (true, t)) ↔
      (∃ l, Handler.new.latest_block = some l ∧
        genesisBlock.validate_block l = true)) ∧
    (∀ t, Handler.new.push_block genesisBlock = some (true, t) →
      t.blockchain.length = Handler.new.blockchain.length + 1 ∧
      t.latest_block = some genesisBlock ∧
      t.blockchain = Handler.new.blockchain ++ [genesisBlock] ∧
      t.genesis = Handler.new.genesis) ∧
    (∀ t, Handler.new.push_block genesisBlock = some (false, t) →
      t = Handler.new) :=
  push_block_characterisation Handler.new genesisBlock

/-- C5: every constructed block stores
`SHA-256(prev_hash ++ be4(index) ++ be16(timestamp) ++ utf8(data))` as its
hash, and `generate_block` links to the previous block with incremented
index. -/
theorem block_hash_invariant (p : List Nat) (i ts now0 : Nat) (d : String)
    (pb : Block) :
    (Block.new p i ts d).hash
        = sha256 (p ++ beBytes 4 i ++ beBytes 16 ts ++ utf8Bytes d) ∧
    (Block.generate_block d pb now0).prev_hash = pb.hash ∧
    (Block.generate_block d pb now0).index = pb.index + 1 ∧
    (Block.generate_block d pb now0).hash
        = sha256 (pb.hash ++ beBytes 4 (pb.index + 1) ++ beBytes 16 now0
            ++ utf8Bytes d) := by
  refine ⟨?_, rfl, rfl, ?_⟩ <;>
    simp [Block.new, Block.generate_block, Block.calculate_hash,
      Sha256.finalize, Sha256.chainUpdate, Sha256.newHasher,
      List.append_assoc]

/-- C6: in every state reachable from `Handler::new` through the public
operations, the chain is non-empty, starts with the genesis block, every
adjacent pair is linked (index continuity, hash linkage, hash
recomputation), and the empty-chain panic branch of `latest()` is
unreachable. -/
theorem reachable_chain_invariant (s : Handler) (h : Reachable s) :
    s.blockchain ≠ [] ∧ s.blockchain.head? = some genesisBlock ∧
    List.Chain' linked s.blockchain ∧ s.latest_block ≠ none := by
  obtain ⟨_, hne, hhead, hchain⟩ := inv_reachable h
  refine ⟨hne, hhead, hchain, ?_⟩
  unfold Handler.latest_block
  exact Option.isSome_iff_ne_none.mp (List.getLast?_isSome.mpr hne)

/-- C6 witness: the invariant holds at the freshly created store. -/
theorem reachable_chain_invariant_witness :
    Reachable Handler.new ∧
    (Handler.new.blockchain ≠ [] ∧
      Handler.new.blockchain.head? = some genesisBlock ∧
      List.Chain' linked Handler.new.blockchain ∧
      Handler.new.latest_block ≠ none) :=
  ⟨Reachable.new, reachable_chain_invariant Handler.new Reachable.new⟩

/-- C7: the two queries reply with the latest block resp. the whole chain
and leave the state unchanged, while the two response messages produce no
reply. -/
theorem process_readonly_queries (s : Handler) (hne : s.blockchain ≠ []) :
    (∃ l, s.latest_block = some l ∧
      s.process ClientMessage.QueryLatest
        = some (some (ClientMessage.ResponseLatest l), s)) ∧
    s.process ClientMessage.QueryAll
      = some (some (ClientMessage.ResponseAll s.blockchain), s) ∧
    (∀ b out, s.process (ClientMessage.ResponseLatest b) = some out →
      out.1 = none) ∧
    (∀ c out, s.process (ClientMessage.ResponseAll c) = some out →
      out.1 = none) := by
  obtain ⟨l, hl⟩ : ∃ l, s.latest_block = some l :=
    Option.isSome_iff_exists.mp (List.getLast?_isSome.mpr hne)
  refine ⟨⟨l, hl, ?_⟩, rfl, ?_, ?_⟩
  · simp [Handler.process, hl]
  · intro b out h
    simp only [Handler.process] at h
    cases hp : s.push_block b with
    | none => rw [hp] at h; simp at h
    | some r =>
        rw [hp] at h
        simp only [Option.map_some', Option.some.injEq] at h
        rw [← h]
  · intro c out h
    simp only [Handler.process] at h
    cases hp : s.replace_chain c with
    | none => rw [hp] at h; simp at h
    | some r =>
        rw [hp] at h
        simp only [Option.map_some', Option.some.injEq] at h
        rw [← h]

/-- C7 witness: the read-only behaviour on the freshly created store. -/
theorem process_readonly_queries_witness :
    (Handler.new.blockchain ≠ []) ∧
    ((∃ l, Handler.new.latest_block = some l ∧
      Handler.new.process ClientMessage.QueryLatest
        = some (some (ClientMessage.ResponseLatest l), Handler.new)) ∧
    Handler.new.process ClientMessage.QueryAll
      = some (some (ClientMessage.ResponseAll Handler.new.blockchain),
          Handler.new) ∧
    (∀ b out, Handler.new.process (ClientMessage.ResponseLatest b)
        = some out → out.1 = none) ∧
    (∀ c out, Handler.new.process (ClientMessage.ResponseAll c)
        = some out → out.1 = none)) :=
  ⟨List.cons_ne_nil _ _,
    process_readonly_queries Handler.new (List.cons_ne_nil _ _)⟩

/-- C8: on input text that does not decode as a Protocol message, `handle`
returns no reply and leaves the store unchanged; decode failure is not
propagated as an error. -/
theorem handle_decode_failure (s : Handler) (txt : String)
    (h : ClientMessage.from_str txt = none) :
    s.handle txt = some (none, s) := by
  simp only [Handler.handle, h]

/-- C8 witness: the malformed text `garbage` is dropped without touching
the fresh store. -/
theorem handle_decode_failure_witness :
    ClientMessage.from_str "garbage" = none ∧
    Handler.new.handle "garbage" = some (none, Handler.new) :=
  ⟨rfl, handle_decode_failure Handler.new "garbage" rfl⟩

/-- C9: encoding then decoding any well-formed Block or Protocol message
yields a structurally equal value, and QueryLatest encodes as the bare
JSON string "QueryLatest". -/
theorem wire_roundtrip :
    (∀ b : Block, b.wf → Block.from_str (Block.to_string b) = some b) ∧
    (∀ m : ClientMessage, m.wf →
      ClientMessage.from_str (ClientMessage.to_string m) = some m) ∧
    ClientMessage.to_string ClientMessage.QueryLatest = "\"QueryLatest\"" := by
  refine ⟨?_, ?_, rfl⟩
  · intro b hwf
    rw [Block.to_string, Block.from_str]
    have h := parseBlock_render b hwf []
    rw [List.append_nil] at h
    rw [show (String.mk (renderBlock b)).data = renderBlock b from rfl, h]
  · intro m hwf
    cases m with
    | QueryLatest => rfl
    | QueryAll => rfl
    | ResponseLatest b =>
        rw [ClientMessage.to_string, ClientMessage.from_str]
        rw [show (String.mk (renderMsg
            (ClientMessage.ResponseLatest b))).data
            = renderMsg (ClientMessage.ResponseLatest b) from rfl]
        rw [parseMsg_responseLatest b hwf]
    | ResponseAll C =>
        rw [ClientMessage.to_string, ClientMessage.from_str]
        rw [show (String.mk (renderMsg
            (ClientMessage.ResponseAll C))).data
            = renderMsg (ClientMessage.ResponseAll C) from rfl]
        rw [parseMsg_responseAll C hwf]

/-- C9 witness: round-trip at a concrete block and a concrete message. -/
theorem wire_roundtrip_witness :
    (Block.wf ⟨zeroHash, 3, 7, "ab", zeroHash⟩) ∧
    Block.from_str (Block.to_string ⟨zeroHash, 3, 7, "ab", zeroHash⟩)
      = some ⟨zeroHash, 3, 7, "ab", zeroHash⟩ ∧
    ClientMessage.wf
      (ClientMessage.ResponseAll [⟨zeroHash, 3, 7, "ab", zeroHash⟩]) ∧
    ClientMessage.from_str (ClientMessage.to_string
        (ClientMessage.ResponseAll [⟨zeroHash, 3, 7, "ab", zeroHash⟩]))
      = some (ClientMessage.ResponseAll [⟨zeroHash, 3, 7, "ab", zeroHash⟩]) :=
  ⟨by decide, wire_roundtrip.1 _ (by decide), by decide,
    wire_roundtrip.2.1 _ (by decide)⟩

/-- C10: a block can never directly follow itself: after a successful
`push_block(b)`, pushing the same `b` again returns `false` and leaves the
chain unchanged, because `b.index` cannot equal `b.index + 1`. -/
theorem push_block_not_idempotent (s : Handler) (b : Block) (t : Handler)
    (h : s.push_block b = some (true, t)) :
    t.push_block b = some (false, t) := by
  rcases push_block_cases h with ⟨_, l, hl, hv, ht⟩ | ⟨hfalse, _⟩
  · have hlast : t.latest_block = some b := by
      subst ht; simp [Handler.latest_block]
    have hself : b.validate_block b = false := by
      simp [Block.validate_block]
    unfold Handler.push_block
    rw [hlast]
    simp only [Option.map_some', hself, Bool.false_eq_true, if_false]
  · exact Bool.noConfusion hfalse

set_option maxRecDepth 8000 in
/-- C10 witness: a concrete successful push on the fresh store, followed by
the rejected duplicate push. -/
theorem push_block_not_idempotent_witness :
    Handler.new.push_block (Block.generate_block "x" genesisBlock 5)
      = some (true,
        ⟨[genesisBlock, Block.generate_block "x" genesisBlock 5],
          genesisBlock⟩) ∧
    Handler.push_block
        ⟨[genesisBlock, Block.generate_block "x" genesisBlock 5],
          genesisBlock⟩
        (Block.generate_block "x" genesisBlock 5)
      = some (false,
        ⟨[genesisBlock, Block.generate_block "x" genesisBlock 5],
          genesisBlock⟩) := by
  have hv : (Block.generate_block "x" genesisBlock 5).validate_block
      genesisBlock = true :=
    (validate_block_iff _ _).mpr ⟨rfl, rfl, hash_new _ _ _ _⟩
  have h1 : Handler.new.push_block (Block.generate_block "x" genesisBlock 5)
      = some (true,
        ⟨[genesisBlock, Block.generate_block "x" genesisBlock 5],
          genesisBlock⟩) := by
    unfold Handler.push_block Handler.latest_block Handler.new
    simp [hv]
  exact ⟨h1, push_block_not_idempotent _ _ _ h1⟩

end Tammany
